import Mathlib

/-!
Verification of `mlpack::kernel::MahalanobisDistance`
(src/mlpack/core/kernels/mahalanobis_distance.hpp).

The class holds a single member, the covariance (weighting) matrix
`covariance_` (an `arma::mat`), and exposes
  * a default constructor `covariance_(0, 0)` (empty matrix),
  * a copying constructor from a caller-supplied matrix,
  * `double Evaluate(const arma::vec& a, const arma::vec& b)`,
  * a const accessor `GetCovariance()` and a mutable accessor
    `GetCovariance()` returning a reference to `covariance_`.

Scalars (C++ `double`) are idealized as exact arithmetic: the quadratic
form is computed over `ℚ` and the optional square root lands in `ℝ`.
Vectors (`arma::vec`) are lists of scalars; matrices (`arma::mat`) are
row-major lists of rows, with the empty matrix `[]` as the 0×0 state.
Mutation of the instance is modelled by explicit state passing:
`Evaluate` returns the scalar together with the instance state after the
call, and assignment through the mutable accessor is a state transformer.
-/

namespace Mahalanobis

/-- A dense numeric vector (`arma::vec`), idealized over `ℚ`. -/
abbrev Vec := List ℚ

/-- A dense numeric matrix (`arma::mat`) as a row-major list of rows;
`[]` is the empty 0×0 state produced by `arma::mat(0, 0)`. -/
abbrev Mat := List (List ℚ)

/-- Elementwise vector subtraction `a - b` (armadillo collaborator). -/
def vsub (a b : Vec) : Vec := List.zipWith (fun x y => x - y) a b

/-- Inner product of two vectors (armadillo collaborator). -/
def dot (a b : Vec) : ℚ := (List.zipWith (fun x y => x * y) a b).sum

/-- Matrix-vector product `Q * v` (armadillo collaborator). -/
def matVecMul (Q : Mat) (v : Vec) : Vec := Q.map (fun row => dot row v)

/-- The quadratic form `vᵗ · Q · v` (armadillo collaborator). -/
def quadForm (Q : Mat) (v : Vec) : ℚ := dot v (matVecMul Q v)

/-- The `n × n` identity matrix (armadillo `eye`). -/
def eyeMat (n : ℕ) : Mat :=
  List.ofFn (fun i : Fin n => List.ofFn (fun j : Fin n => if i = j then (1 : ℚ) else 0))

/-- Elementwise scaling `c · Q` of a matrix. -/
def scaleMat (c : ℚ) (Q : Mat) : Mat := Q.map (fun row => row.map (fun x => c * x))

/-- Decides that `Q` is square. -/
def isSquare (Q : Mat) : Bool := Q.all (fun r => r.length == Q.length)

/-- Decides that `Q` is a `d × d` matrix. -/
def isSquareOfDim (d : ℕ) (Q : Mat) : Bool :=
  (Q.length == d) && Q.all (fun r => r.length == d)

/-- The state of a `MahalanobisDistance` instance: its single data member,
the covariance (weighting) matrix `covariance_`. -/
structure MahalanobisDistance where
  covariance : Mat
deriving DecidableEq

namespace MahalanobisDistance

/-- Default constructor: `covariance_(0, 0)`, the empty matrix. -/
def mk0 : MahalanobisDistance := ⟨[]⟩

/-- Copying constructor `MahalanobisDistance(const arma::mat& covariance)`:
the supplied matrix is copied into `covariance_`. -/
def ofCovariance (Q : Mat) : MahalanobisDistance := ⟨Q⟩

/-- Const accessor `GetCovariance() const`: returns the covariance matrix. -/
def GetCovariance (m : MahalanobisDistance) : Mat := m.covariance

/-- Models a wholesale assignment `obj.GetCovariance() = Q` through the
mutable accessor `arma::mat& GetCovariance()`: the covariance matrix is
replaced and nothing else changes. -/
def SetCovariance (_ : MahalanobisDistance) (Q : Mat) : MahalanobisDistance := ⟨Q⟩

/-- Modelled from the spec: the body of `Evaluate` lives in
`mahalanobis_distance_impl.hpp`, which is not among the sources (only its
declaration in the header is).  Per the spec, the weighting matrix is
"lazily empty until explicitly set or until first evaluation infers a
size": the covariance actually used by an evaluation is the stored one,
except that in the empty 0×0 state a `d × d` matrix is inferred from the
first input vector (`d` the dimensionality of `a`); the spec fixes only
the inferred size, and the identity is used so that an unconfigured
instance computes the (squared) Euclidean distance. -/
def usedCovariance (m : MahalanobisDistance) (a : Vec) : Mat :=
  if m.covariance.length = 0 then eyeMat a.length else m.covariance

/-- Modelled from the spec: the instance state after a call to `Evaluate`
with first argument `a` — lazy initialization replaces an empty covariance
by the inferred one, and a non-empty covariance is left unchanged. -/
def evalStep (m : MahalanobisDistance) (a : Vec) : MahalanobisDistance :=
  ⟨usedCovariance m a⟩

/-- Modelled from the spec: the scalar computed by `Evaluate` before the
root policy is applied — `diff = a - b`, then the quadratic form
`v = diffᵗ · Q · diff` with `Q` the covariance in use. -/
def evalBase (m : MahalanobisDistance) (a b : Vec) : ℚ :=
  quadForm (usedCovariance m a) (vsub a b)

/-- Modelled from the spec: `Evaluate(a, b)` under the compile-time root
policy `t_take_root`.  Returns the scalar result — the quadratic form `v`
when the root policy is disabled, `sqrt v` when it is enabled — together
with the instance state after the call. -/
noncomputable def Evaluate (t_take_root : Bool) (m : MahalanobisDistance)
    (a b : Vec) : ℝ × MahalanobisDistance :=
  (if t_take_root then Real.sqrt (evalBase m a b) else ((evalBase m a b : ℚ) : ℝ),
   evalStep m a)

/-- A client program making two `Evaluate` calls with a wholesale
replacement of the weighting matrix (through the mutable accessor) in
between; returns the two values the client observed. -/
noncomputable def twoCallRun (t : Bool) (m0 : MahalanobisDistance) (Qnew : Mat)
    (a b a2 b2 : Vec) : ℝ × ℝ :=
  let p1 := Evaluate t m0 a b
  let m1 := SetCovariance p1.2 Qnew
  let p2 := Evaluate t m1 a2 b2
  (p1.1, p2.1)

end MahalanobisDistance

/-- Conversion of a size-indexed vector to the list model. -/
def vecOfFn {d : ℕ} (f : Fin d → ℚ) : Vec := List.ofFn f

/-- Conversion of a size-indexed square matrix to the row-major list model. -/
def matOfFn {d : ℕ} (Q : Fin d → Fin d → ℚ) : Mat :=
  List.ofFn (fun i => List.ofFn (Q i))

/-- The quadratic form as the spec words it, over Mathlib matrices:
`diff = a - b`, `v = diffᵗ · Q · diff`. -/
def specQuadraticForm {d : ℕ} (Q : Matrix (Fin d) (Fin d) ℚ) (a b : Fin d → ℚ) : ℚ :=
  Matrix.dotProduct (a - b) (Q.mulVec (a - b))

/-- Squared Euclidean distance between two `d`-dimensional vectors. -/
def sqEuclidean {d : ℕ} (a b : Fin d → ℚ) : ℚ := ∑ i, (a i - b i) ^ 2

/-! ### Helper lemmas about the list-level linear algebra -/

theorem zipWith_ofFn {α β γ : Type} (h : α → β → γ) :
    ∀ {n : ℕ} (f : Fin n → α) (g : Fin n → β),
      List.zipWith h (List.ofFn f) (List.ofFn g) = List.ofFn (fun i => h (f i) (g i))
  | 0, _, _ => by simp
  | n + 1, f, g => by
      simp only [List.ofFn_succ, List.zipWith_cons_cons]
      rw [zipWith_ofFn h (fun i => f i.succ) (fun i => g i.succ)]

theorem dot_ofFn {n : ℕ} (f g : Fin n → ℚ) :
    dot (List.ofFn f) (List.ofFn g) = ∑ i, f i * g i := by
  rw [dot, zipWith_ofFn, List.sum_ofFn]

theorem vsub_ofFn {n : ℕ} (f g : Fin n → ℚ) :
    vsub (List.ofFn f) (List.ofFn g) = List.ofFn (fun i => f i - g i) := by
  rw [vsub, zipWith_ofFn]

theorem matVecMul_ofFn {n : ℕ} (Q : Fin n → Fin n → ℚ) (v : Fin n → ℚ) :
    matVecMul (matOfFn Q) (List.ofFn v) = List.ofFn (fun i => ∑ j, Q i j * v j) := by
  simp only [matVecMul, matOfFn, List.map_ofFn, Function.comp_def, dot_ofFn]

theorem quadForm_ofFn {n : ℕ} (Q : Fin n → Fin n → ℚ) (v : Fin n → ℚ) :
    quadForm (matOfFn Q) (List.ofFn v) = ∑ i, v i * ∑ j, Q i j * v j := by
  rw [quadForm, matVecMul_ofFn, dot_ofFn]

theorem length_eyeMat (n : ℕ) : (eyeMat n).length = n := by
  simp [eyeMat]

theorem eyeMat_eq_matOfFn (n : ℕ) :
    eyeMat n = matOfFn (fun i j : Fin n => if i = j then (1 : ℚ) else 0) := rfl

theorem quadForm_eyeMat {n : ℕ} (v : Fin n → ℚ) :
    quadForm (eyeMat n) (List.ofFn v) = ∑ i, v i ^ 2 := by
  rw [eyeMat_eq_matOfFn, quadForm_ofFn]
  refine Finset.sum_congr rfl (fun i _ => ?_)
  simp [ite_mul, Finset.sum_ite_eq, sq]

theorem dot_nil_left (w : Vec) : dot [] w = 0 := rfl

theorem dot_zero_left : ∀ (v w : Vec), (∀ x ∈ v, x = 0) → dot v w = 0
  | [], _, _ => rfl
  | _ :: _, [], _ => rfl
  | x :: v, y :: w, h => by
      have hx : x = 0 := h x (List.mem_cons_self x v)
      have hv : dot v w = 0 := dot_zero_left v w (fun z hz => h z (List.mem_cons_of_mem x hz))
      simp only [dot, List.zipWith_cons_cons, List.sum_cons] at *
      rw [hx, hv, zero_mul, add_zero]

theorem vsub_self_all_zero (a : Vec) : ∀ x ∈ vsub a a, x = 0 := by
  induction a with
  | nil => intro x hx; simp [vsub] at hx
  | cons y t ih =>
      intro x hx
      simp only [vsub, List.zipWith_cons_cons] at hx
      rcases List.mem_cons.mp hx with h | h
      · rw [h]; exact sub_self y
      · exact ih x h

theorem quadForm_vsub_self (Q : Mat) (a : Vec) : quadForm Q (vsub a a) = 0 :=
  dot_zero_left _ _ (vsub_self_all_zero a)

theorem dot_map_neg_left : ∀ (v w : Vec), dot (v.map (fun x => -x)) w = -(dot v w)
  | [], w => by simp [dot]
  | _ :: _, [] => by simp [dot]
  | x :: v, y :: w => by
      have ih := dot_map_neg_left v w
      simp only [List.map_cons, dot, List.zipWith_cons_cons, List.sum_cons] at ih ⊢
      rw [ih]; ring

theorem dot_map_neg_right : ∀ (v w : Vec), dot v (w.map (fun x => -x)) = -(dot v w)
  | [], _ => by simp [dot]
  | _ :: _, [] => by simp [dot]
  | x :: v, y :: w => by
      have ih := dot_map_neg_right v w
      simp only [List.map_cons, dot, List.zipWith_cons_cons, List.sum_cons] at ih ⊢
      rw [ih]; ring

theorem matVecMul_map_neg (Q : Mat) (v : Vec) :
    matVecMul Q (v.map (fun x => -x)) = (matVecMul Q v).map (fun x => -x) := by
  simp only [matVecMul, List.map_map, Function.comp_def, dot_map_neg_right]

theorem quadForm_map_neg (Q : Mat) (v : Vec) :
    quadForm Q (v.map (fun x => -x)) = quadForm Q v := by
  rw [quadForm, matVecMul_map_neg, dot_map_neg_left, dot_map_neg_right, neg_neg, quadForm]

theorem vsub_antisymm : ∀ (a b : Vec), vsub b a = (vsub a b).map (fun x => -x)
  | [], [] => rfl
  | [], _ :: _ => rfl
  | _ :: _, [] => rfl
  | x :: a, y :: b => by
      simp only [vsub, List.zipWith_cons_cons, List.map_cons]
      rw [neg_sub]
      exact congrArg _ (vsub_antisymm a b)

theorem dot_map_smul_left (c : ℚ) : ∀ (v w : Vec), dot (v.map (fun x => c * x)) w = c * dot v w
  | [], w => by simp [dot]
  | _ :: _, [] => by simp [dot]
  | x :: v, y :: w => by
      have ih := dot_map_smul_left c v w
      simp only [List.map_cons, dot, List.zipWith_cons_cons, List.sum_cons] at ih ⊢
      rw [ih]; ring

theorem dot_map_smul_right (c : ℚ) : ∀ (v w : Vec), dot v (w.map (fun x => c * x)) = c * dot v w
  | [], _ => by simp [dot]
  | _ :: _, [] => by simp [dot]
  | x :: v, y :: w => by
      have ih := dot_map_smul_right c v w
      simp only [List.map_cons, dot, List.zipWith_cons_cons, List.sum_cons] at ih ⊢
      rw [ih]; ring

theorem matVecMul_scaleMat (c : ℚ) (Q : Mat) (v : Vec) :
    matVecMul (scaleMat c Q) v = (matVecMul Q v).map (fun x => c * x) := by
  simp only [matVecMul, scaleMat, List.map_map, Function.comp_def, dot_map_smul_left]

theorem quadForm_scaleMat (c : ℚ) (Q : Mat) (v : Vec) :
    quadForm (scaleMat c Q) v = c * quadForm Q v := by
  rw [quadForm, matVecMul_scaleMat, dot_map_smul_right, quadForm]

theorem length_scaleMat (c : ℚ) (Q : Mat) : (scaleMat c Q).length = Q.length := by
  simp [scaleMat]

theorem isSquareOfDim_eyeMat (n : ℕ) : isSquareOfDim n (eyeMat n) = true := by
  simp [isSquareOfDim, eyeMat, List.all_eq_true, List.mem_ofFn]

namespace MahalanobisDistance

theorem usedCovariance_ofCovariance (Q : Mat) (a : Vec) :
    usedCovariance (ofCovariance Q) a = if Q.length = 0 then eyeMat a.length else Q := rfl

theorem usedCovariance_of_nonempty (m : MahalanobisDistance) (a : Vec)
    (h : m.covariance ≠ []) : usedCovariance m a = m.covariance := by
  rw [usedCovariance, if_neg]
  simpa using h

theorem usedCovariance_ofCovariance_matOfFn {d : ℕ} (Q : Fin d → Fin d → ℚ) (a : Fin d → ℚ) :
    usedCovariance (ofCovariance (matOfFn Q)) (vecOfFn a) = matOfFn Q := by
  rcases Nat.eq_zero_or_pos d with h | h
  · subst h
    simp [usedCovariance_ofCovariance, matOfFn, vecOfFn, eyeMat]
  · rw [usedCovariance_ofCovariance, if_neg]
    simp only [matOfFn, List.length_ofFn]
    omega

theorem evaluate_false_val (m : MahalanobisDistance) (a b : Vec) :
    (Evaluate false m a b).1 = ((evalBase m a b : ℚ) : ℝ) := rfl

theorem evaluate_true_val (m : MahalanobisDistance) (a b : Vec) :
    (Evaluate true m a b).1 = Real.sqrt ((evalBase m a b : ℚ) : ℝ) := rfl

theorem evaluate_snd (t : Bool) (m : MahalanobisDistance) (a b : Vec) :
    (Evaluate t m a b).2 = evalStep m a := rfl

theorem evalBase_ofCovariance_matOfFn {d : ℕ} (Q : Fin d → Fin d → ℚ) (a b : Fin d → ℚ) :
    evalBase (ofCovariance (matOfFn Q)) (vecOfFn a) (vecOfFn b)
      = ∑ i, (a i - b i) * ∑ j, Q i j * (a j - b j) := by
  rw [evalBase, usedCovariance_ofCovariance_matOfFn, vecOfFn, vecOfFn, vsub_ofFn,
    quadForm_ofFn]

end MahalanobisDistance

/-! ### The claims -/

open MahalanobisDistance

/-- C1: For every two vectors `a` and `b` of equal dimension `d` and every
`d × d` weighting matrix `Q` held by the instance, `Evaluate(a, b)` with the
root policy disabled (`t_take_root = false`, the default) returns the
quadratic form `(a - b)ᵗ · Q · (a - b)`. -/
theorem evaluate_noRoot_eq_quadraticForm {d : ℕ}
    (Q : Matrix (Fin d) (Fin d) ℚ) (a b : Fin d → ℚ) :
    (Evaluate false (ofCovariance (matOfFn (fun i j => Q i j)))
        (vecOfFn a) (vecOfFn b)).1 = ((specQuadraticForm Q a b : ℚ) : ℝ) := by
  have key : evalBase (ofCovariance (matOfFn (fun i j => Q i j)))
      (vecOfFn a) (vecOfFn b) = specQuadraticForm Q a b := by
    rw [evalBase_ofCovariance_matOfFn, specQuadraticForm]
    simp [Matrix.dotProduct, Matrix.mulVec]
  rw [evaluate_false_val, key]

/-- C2: For every two vectors `a` and `b` of equal dimension `d` and every
`d × d` weighting matrix `Q` held by the instance, `Evaluate(a, b)` with the
root policy enabled (`t_take_root = true`) returns
`sqrt((a - b)ᵗ · Q · (a - b))`, i.e. the square root of the value the
no-root instance would return on the same inputs and matrix. -/
theorem evaluate_root_eq_sqrt {d : ℕ}
    (Q : Matrix (Fin d) (Fin d) ℚ) (a b : Fin d → ℚ) :
    (Evaluate true (ofCovariance (matOfFn (fun i j => Q i j)))
        (vecOfFn a) (vecOfFn b)).1
      = Real.sqrt ((specQuadraticForm Q a b : ℚ) : ℝ)
    ∧ (Evaluate true (ofCovariance (matOfFn (fun i j => Q i j)))
        (vecOfFn a) (vecOfFn b)).1
      = Real.sqrt ((Evaluate false (ofCovariance (matOfFn (fun i j => Q i j)))
          (vecOfFn a) (vecOfFn b)).1) := by
  have key : evalBase (ofCovariance (matOfFn (fun i j => Q i j)))
      (vecOfFn a) (vecOfFn b) = specQuadraticForm Q a b := by
    rw [evalBase_ofCovariance_matOfFn, specQuadraticForm]
    simp [Matrix.dotProduct, Matrix.mulVec]
  constructor
  · rw [evaluate_true_val, key]
  · rw [evaluate_true_val, evaluate_false_val]

/-- C3, counterexample: the claim "calling `Evaluate` leaves the instance's
weighting matrix, and all other instance state, exactly unchanged"
(including the empty 0×0 state) fails at the empty state: evaluating
`Evaluate([1], [0])` on a default-constructed instance lazily initializes
the weighting matrix, so the state after the call differs from the state
before it. -/
theorem evaluate_mutates_empty_state :
    (Evaluate false MahalanobisDistance.mk0 [1] [0]).2 ≠ MahalanobisDistance.mk0 := by
  show evalStep MahalanobisDistance.mk0 [1] ≠ MahalanobisDistance.mk0
  decide

/-- C3, amended: for every pair of input vectors and every NON-EMPTY state
of the weighting matrix, calling `Evaluate` leaves the instance's weighting
matrix, and all other instance state, exactly unchanged (in the empty 0×0
state, lazy initialization resizes the matrix; see C4). -/
theorem evaluate_preserves_nonempty_state (t : Bool) (m : MahalanobisDistance)
    (a b : Vec) (h : m.covariance ≠ []) : (Evaluate t m a b).2 = m := by
  rw [evaluate_snd, evalStep, usedCovariance_of_nonempty m a h]

/-- Witness for the amended C3 at a concrete nonempty state. -/
theorem evaluate_preserves_nonempty_state_witness :
    (⟨[[2]]⟩ : MahalanobisDistance).covariance ≠ []
    ∧ (Evaluate true ⟨[[2]]⟩ [1] [3]).2 = (⟨[[2]]⟩ : MahalanobisDistance) :=
  ⟨by decide, evaluate_preserves_nonempty_state true ⟨[[2]]⟩ [1] [3] (by decide)⟩

/-- C4: a default-constructed instance holds the empty 0×0 weighting
matrix, and the first call to `Evaluate(a, b)` while the matrix is in that
empty state infers a size from the input vectors, leaving the instance's
weighting matrix with dimension `d × d` where `d` is the dimensionality
of `a`. -/
theorem default_empty_and_lazy_init (t : Bool) (m : MahalanobisDistance)
    (a b : Vec) (h : m.covariance = []) :
    MahalanobisDistance.mk0.covariance = ([] : Mat)
    ∧ isSquareOfDim a.length ((Evaluate t m a b).2.covariance) = true := by
  refine ⟨rfl, ?_⟩
  rw [evaluate_snd, evalStep, usedCovariance, h]
  simpa using isSquareOfDim_eyeMat a.length

/-- Witness for C4 at a concrete empty-state instance and input. -/
theorem default_empty_and_lazy_init_witness :
    MahalanobisDistance.mk0.covariance = ([] : Mat)
    ∧ (MahalanobisDistance.mk0.covariance = ([] : Mat)
      ∧ isSquareOfDim ([5] : Vec).length
          ((Evaluate false MahalanobisDistance.mk0 [5] [7]).2.covariance) = true) :=
  ⟨rfl, default_empty_and_lazy_init false MahalanobisDistance.mk0 [5] [7] rfl⟩

/-- C5: when the instance holds the `d × d` identity matrix, `Evaluate`
with the root policy disabled returns the squared Euclidean distance, and
with the root policy enabled the Euclidean distance, between the two
input vectors. -/
theorem evaluate_identity_euclidean {d : ℕ} (a b : Fin d → ℚ) :
    (Evaluate false (ofCovariance (eyeMat d)) (vecOfFn a) (vecOfFn b)).1
      = ((sqEuclidean a b : ℚ) : ℝ)
    ∧ (Evaluate true (ofCovariance (eyeMat d)) (vecOfFn a) (vecOfFn b)).1
      = Real.sqrt ((sqEuclidean a b : ℚ) : ℝ) := by
  have key : evalBase (ofCovariance (eyeMat d)) (vecOfFn a) (vecOfFn b)
      = sqEuclidean a b := by
    rw [evalBase, eyeMat_eq_matOfFn, usedCovariance_ofCovariance_matOfFn,
      ← eyeMat_eq_matOfFn, vecOfFn, vecOfFn, vsub_ofFn, quadForm_eyeMat, sqEuclidean]
  exact ⟨by rw [evaluate_false_val, key], by rw [evaluate_true_val, key]⟩

/-- C6: self-distance is zero — for every vector `a` and every square
weighting matrix `Q` held by the instance, under either root policy,
`Evaluate(a, a) = 0`. -/
theorem evaluate_self_eq_zero (t : Bool) (Q : Mat) (a : Vec)
    (hQ : isSquare Q = true) :
    (Evaluate t (ofCovariance Q) a a).1 = 0 := by
  have key : evalBase (ofCovariance Q) a a = 0 := quadForm_vsub_self _ a
  cases t
  · rw [evaluate_false_val, key]; norm_num
  · rw [evaluate_true_val, key]; simp

/-- Witness for C6 at a concrete square matrix and vector. -/
theorem evaluate_self_eq_zero_witness :
    isSquare [[2, 1], [1, 2]] = true
    ∧ (Evaluate true (ofCovariance [[2, 1], [1, 2]]) [1, 2] [1, 2]).1 = 0 :=
  ⟨by decide, evaluate_self_eq_zero true [[2, 1], [1, 2]] [1, 2] (by decide)⟩

/-- C7: symmetry — for every two vectors `a` and `b` of equal dimension and
every square weighting matrix `Q` held by the instance, under either root
policy, `Evaluate(a, b) = Evaluate(b, a)`. -/
theorem evaluate_symm (t : Bool) (Q : Mat) (a b : Vec)
    (hQ : isSquare Q = true) (hlen : a.length = b.length) :
    (Evaluate t (ofCovariance Q) a b).1 = (Evaluate t (ofCovariance Q) b a).1 := by
  have hused : usedCovariance (ofCovariance Q) a = usedCovariance (ofCovariance Q) b := by
    rw [usedCovariance_ofCovariance, usedCovariance_ofCovariance, hlen]
  have key : evalBase (ofCovariance Q) a b = evalBase (ofCovariance Q) b a := by
    rw [evalBase, evalBase, ← hused, vsub_antisymm a b, quadForm_map_neg]
  cases t
  · rw [evaluate_false_val, evaluate_false_val, key]
  · rw [evaluate_true_val, evaluate_true_val, key]

/-- Witness for C7 at a concrete square matrix and pair of vectors. -/
theorem evaluate_symm_witness :
    isSquare [[1, 2], [3, 4]] = true
    ∧ ([1, 2] : Vec).length = ([3, 4] : Vec).length
    ∧ (Evaluate true (ofCovariance [[1, 2], [3, 4]]) [1, 2] [3, 4]).1
        = (Evaluate true (ofCovariance [[1, 2], [3, 4]]) [3, 4] [1, 2]).1 :=
  ⟨by decide, by decide,
    evaluate_symm true [[1, 2], [3, 4]] [1, 2] [3, 4] (by decide) (by decide)⟩

/-- C8: positive scaling of the weighting matrix — for every scalar
`c > 0`, every square matrix `Q`, and every two vectors `a`, `b` of
dimension matching `Q`, `Evaluate(a, b)` of an instance holding `c · Q` in
no-root mode equals `c` times `Evaluate(a, b)` of an instance holding `Q`;
in root mode it equals `sqrt c` times the square root of the no-root value
under `Q`. -/
theorem evaluate_scaleMat (c : ℚ) (Q : Mat) (a b : Vec) (hc : 0 < c)
    (hQ : isSquare Q = true) (hQd : Q.length = a.length) (hlen : b.length = a.length) :
    (Evaluate false (ofCovariance (scaleMat c Q)) a b).1
      = (c : ℝ) * (Evaluate false (ofCovariance Q) a b).1
    ∧ (Evaluate true (ofCovariance (scaleMat c Q)) a b).1
      = Real.sqrt (c : ℝ) * Real.sqrt ((Evaluate false (ofCovariance Q) a b).1) := by
  have key : evalBase (ofCovariance (scaleMat c Q)) a b
      = c * evalBase (ofCovariance Q) a b := by
    rcases Nat.eq_zero_or_pos Q.length with h0 | hpos
    · have ha : a = [] := List.length_eq_zero.mp (by omega)
      subst ha
      simp [evalBase, vsub, quadForm, dot]
    · rw [evalBase, evalBase, usedCovariance_ofCovariance, usedCovariance_ofCovariance,
        if_neg (by rw [length_scaleMat]; omega), if_neg (by omega), quadForm_scaleMat]
  constructor
  · rw [evaluate_false_val, evaluate_false_val, key]
    push_cast
    ring
  · rw [evaluate_true_val, evaluate_false_val, key]
    rw [show ((c * evalBase (ofCovariance Q) a b : ℚ) : ℝ)
        = (c : ℝ) * ((evalBase (ofCovariance Q) a b : ℚ) : ℝ) by push_cast; ring]
    exact Real.sqrt_mul (by positivity) _

/-- Witness for C8 at concrete scalar, matrix and vectors. -/
theorem evaluate_scaleMat_witness :
    (0 : ℚ) < 2
    ∧ isSquare [[1, 0], [0, 1]] = true
    ∧ ([[1, 0], [0, 1]] : Mat).length = ([1, 2] : Vec).length
    ∧ ([3, 5] : Vec).length = ([1, 2] : Vec).length
    ∧ ((Evaluate false (ofCovariance (scaleMat 2 [[1, 0], [0, 1]])) [1, 2] [3, 5]).1
        = ((2 : ℚ) : ℝ) * (Evaluate false (ofCovariance [[1, 0], [0, 1]]) [1, 2] [3, 5]).1
      ∧ (Evaluate true (ofCovariance (scaleMat 2 [[1, 0], [0, 1]])) [1, 2] [3, 5]).1
        = Real.sqrt ((2 : ℚ) : ℝ)
            * Real.sqrt ((Evaluate false (ofCovariance [[1, 0], [0, 1]]) [1, 2] [3, 5]).1)) :=
  ⟨by norm_num, by decide, by decide, by decide,
    evaluate_scaleMat 2 [[1, 0], [0, 1]] [1, 2] [3, 5] (by norm_num) (by decide)
      (by decide) (by decide)⟩

/-- C9: the stored weighting matrix equals the last matrix supplied —
constructing from `Q`, or assigning `Q` through the mutable accessor,
makes the read-only `GetCovariance` return a matrix equal to `Q`. -/
theorem getCovariance_eq_last_supplied (Q : Mat) (m : MahalanobisDistance) :
    (ofCovariance Q).GetCovariance = Q ∧ (m.SetCovariance Q).GetCovariance = Q :=
  ⟨rfl, rfl⟩

/-- C10: the result of `Evaluate` depends only on its two argument vectors
and the weighting matrix currently held — after replacing the matrix by
`Qnew` through the mutable accessor, `Evaluate` agrees with a fresh
instance holding `Qnew`, and the value returned by the `Evaluate` call
made before the replacement equals the value the unreplaced instance
returns. -/
theorem twoCallRun_agreement (t : Bool) (m : MahalanobisDistance) (Qnew : Mat)
    (a b a2 b2 : Vec) :
    (twoCallRun t m Qnew a b a2 b2).2 = (Evaluate t (ofCovariance Qnew) a2 b2).1
    ∧ (twoCallRun t m Qnew a b a2 b2).1 = (Evaluate t m a b).1 :=
  ⟨rfl, rfl⟩

end Mahalanobis
